import Mathlib

/-!
Verification of the assignment-tracking state machine of `sw_taskset.py`.

The source is a polling daemon: each cycle it observes the PIDs of the
watched executables (`pidof cc1plus`, `pidof cc1`), rebuilds the in-use
core list and the PID-to-core dictionary from the previous cycle's
dictionary (survivor pass, then newcomer pass calling `getprocess_num`
for each PID not present in the old dictionary), issues a `taskset`
command per newly allocated core, and finally swaps the fresh dictionary
in as the retained state.

The embedding below translates that code directly:
* the global `process_num` list becomes the `pool` parameter, instantiated
  at `process_num` (the literal from line 5 of the source);
* `getprocess_num` (source lines 8-15) becomes `getprocess_num`, with the
  early length test and the linear scan kept exactly;
* the Python dictionaries become association lists with last-write-wins
  insertion (`dictInsert`) and first-match lookup (`dlookup`), which is
  observationally faithful because the source only ever queries the
  dictionaries by key;
* the two `for pid in map_list` passes of the main loop (source lines
  46-57) become `survivorStep` and `newcomerStep`; `newcomerStep` also
  returns, in order, the `(pid, core)` pairs for which the source runs
  `tastset_pid` (the bind commands);
* the `try/except` wrappers around `get_pid` (source lines 30-40) become
  `observePhase`, where a failed or empty lookup is the `none` input.
-/

namespace SwTaskset

/-- The fixed core pool, the global `process_num` of the source
(line 5: `[1,2,3,4,5,6,7,9,10,11,12,13,14,15]`; note 8 is absent). -/
def process_num : List Int := [1, 2, 3, 4, 5, 6, 7, 9, 10, 11, 12, 13, 14, 15]

/-- The scan `for n in process_num: if n not in using_process: return n`
followed by `return -1` (source lines 12-15), over an arbitrary pool. -/
def firstFree : List Int → List Int → Int
  | [], _ => -1
  | n :: rest, u => if n ∈ u then firstFree rest u else n

/-- `getprocess_num` (source lines 8-15): the early test
`len(using_process) == len(process_num)` returning `-1`, then the scan for
the first pool entry not in the in-use list. The globals `process_num` and
`using_process` are passed as the parameters `pool` and `u`. -/
def getprocess_num (pool : List Int) (u : List Int) : Int :=
  if u.length = pool.length then -1 else firstFree pool u

/-- A Python dictionary from PIDs to core numbers, as an association list.
The source stores `{'pn': core}` records as values; only the `pn` field is
ever read, so the value type is the core number itself. -/
abbrev Dict := List (Int × Int)

/-- First-match lookup, the semantics of `d[k]` / `k in d.keys()`. -/
def dlookup : Dict → Int → Option Int
  | [], _ => none
  | (k, v) :: rest, p => if p = k then some v else dlookup rest p

/-- Replace the (first) entry holding key `k` by `(k, v)`. On key-unique
dictionaries this is the in-place overwrite a Python dictionary performs. -/
def replaceEntry : Dict → Int → Int → Dict
  | [], _, _ => []
  | (k', w) :: rest, k, v =>
    if k' = k then (k, v) :: rest else (k', w) :: replaceEntry rest k v

/-- Last-write-wins insertion, the semantics of `d[k] = v`: replace the
entry in place when the key is present, append otherwise. -/
def dictInsert (d : Dict) (k v : Int) : Dict :=
  if (dlookup d k).isSome then replaceEntry d k v else d ++ [(k, v)]

/-- The survivor pass (source lines 46-49): for each observed PID already
in the old dictionary, append its old core to `using_process` and record
the unchanged entry in the fresh dictionary. Returns the in-use list
built by the pass and the threaded fresh dictionary. -/
def survivorStep (old : Dict) : List Int → Dict → List Int × Dict
  | [], c => ([], c)
  | pid :: rest, c =>
    match dlookup old pid with
    | some pn =>
      let r := survivorStep old rest (dictInsert c pid pn)
      (pn :: r.1, r.2)
    | none => survivorStep old rest c

/-- The state at the end of a reconciliation: the rebuilt `using_process`
list, the fresh `cur_pid_arr` dictionary, and the `(pid, core)` pairs for
which the source issued a `taskset` bind command, in order. -/
structure CycleOut where
  using_process : List Int
  cur_pid_arr : Dict
  binds : List (Int × Int)

/-- The newcomer pass (source lines 50-57): for each observed PID not in
the OLD dictionary, allocate a core with `getprocess_num`; on `-1` break
out of the pass, otherwise issue the bind command, record the entry and
mark the core in use. -/
def newcomerStep (pool : List Int) (old : Dict) :
    List Int → List Int → Dict → CycleOut
  | [], u, c => ⟨u, c, []⟩
  | pid :: rest, u, c =>
    if (dlookup old pid).isSome then newcomerStep pool old rest u c
    else
      let pn := getprocess_num pool u
      if pn = -1 then ⟨u, c, []⟩
      else
        let r := newcomerStep pool old rest (u ++ [pn]) (dictInsert c pid pn)
        ⟨r.using_process, r.cur_pid_arr, (pid, pn) :: r.binds⟩

/-- One reconciliation (source lines 44-57): reset `using_process` and
`cur_pid_arr`, run the survivor pass, then the newcomer pass over the same
observed list. -/
def reconcile (pool : List Int) (old : Dict) (ml : List Int) : CycleOut :=
  let s := survivorStep old ml []
  newcomerStep pool old ml s.1 s.2

/-- Iterated cycles: the `old_pid_arr = cur_pid_arr` swap (source line 58)
feeds each reconciled dictionary into the next cycle as the retained
state. -/
def runCycles (pool : List Int) (old : Dict) : List (List Int) → Dict
  | [] => old
  | ml :: rest => runCycles pool (reconcile pool old ml).cur_pid_arr rest

/-- The observe phase (source lines 30-41): each `get_pid` call either
succeeds with a PID list or fails (exception or no match), in which case
its contribution stays the empty list initialised before the `try`; the
two contributions are concatenated into `map_list`. -/
def observePhase (r1 r2 : Option (List Int)) : List Int :=
  (match r1 with
   | some l => l
   | none => []) ++
  (match r2 with
   | some l => l
   | none => [])

/-! ### Basic dictionary lemmas -/

theorem dlookup_append_some {a : Dict} {p v : Int} (b : Dict)
    (h : dlookup a p = some v) : dlookup (a ++ b) p = some v := by
  induction a with
  | nil => simp [dlookup] at h
  | cons e rest ih =>
    obtain ⟨k, w⟩ := e
    by_cases hp : p = k
    · simpa [dlookup, hp] using h
    · simp only [dlookup, if_neg hp] at h
      simpa [dlookup, hp] using ih h

theorem dlookup_append_none {a : Dict} {p : Int} (b : Dict)
    (h : dlookup a p = none) : dlookup (a ++ b) p = dlookup b p := by
  induction a with
  | nil => simp [dlookup]
  | cons e rest ih =>
    obtain ⟨k, w⟩ := e
    by_cases hp : p = k
    · simp [dlookup, hp] at h
    · simp only [dlookup, if_neg hp] at h
      simpa [dlookup, hp] using ih h

theorem dlookup_replaceEntry_ne {d : Dict} {k p : Int} (v : Int) (hne : p ≠ k) :
    dlookup (replaceEntry d k v) p = dlookup d p := by
  induction d with
  | nil => rfl
  | cons e rest ih =>
    obtain ⟨k', w⟩ := e
    by_cases hk : k' = k
    · rw [replaceEntry, if_pos hk]
      have hpk' : ¬ p = k' := fun hh => hne (hk ▸ hh)
      simp only [dlookup, if_neg hne, if_neg hpk']
    · rw [replaceEntry, if_neg hk]
      by_cases hp : p = k'
      · simp only [dlookup, if_pos hp]
      · simp only [dlookup, if_neg hp]
        exact ih

theorem dlookup_replaceEntry_self {d : Dict} {k : Int} (v : Int)
    (h : (dlookup d k).isSome) :
    dlookup (replaceEntry d k v) k = some v := by
  induction d with
  | nil => simp [dlookup] at h
  | cons e rest ih =>
    obtain ⟨k', w⟩ := e
    by_cases hk : k' = k
    · rw [replaceEntry, if_pos hk]
      simp [dlookup]
    · rw [replaceEntry, if_neg hk]
      have hkk' : ¬ k = k' := fun hh => hk hh.symm
      simp only [dlookup, if_neg hkk'] at h ⊢
      exact ih h

theorem dlookup_dictInsert_self (d : Dict) (k v : Int) :
    dlookup (dictInsert d k v) k = some v := by
  unfold dictInsert
  by_cases h : (dlookup d k).isSome
  · rw [if_pos h]
    exact dlookup_replaceEntry_self v h
  · rw [if_neg h]
    have hnone : dlookup d k = none := by
      cases hd : dlookup d k with
      | none => rfl
      | some w => simp [hd] at h
    rw [dlookup_append_none _ hnone]
    simp [dlookup]

theorem dlookup_dictInsert_ne (d : Dict) {k p : Int} (v : Int) (hne : p ≠ k) :
    dlookup (dictInsert d k v) p = dlookup d p := by
  unfold dictInsert
  by_cases h : (dlookup d k).isSome
  · rw [if_pos h]
    exact dlookup_replaceEntry_ne v hne
  · rw [if_neg h]
    cases hd : dlookup d p with
    | some w => exact dlookup_append_some _ hd
    | none => rw [dlookup_append_none _ hd]; simp [dlookup, hne]

/-! ### Lemmas about the core allocator -/

theorem firstFree_spec (pool u : List Int) :
    firstFree pool u = -1 ∨ (firstFree pool u ∈ pool ∧ firstFree pool u ∉ u) := by
  induction pool with
  | nil => exact Or.inl rfl
  | cons n rest ih =>
    by_cases h : n ∈ u
    · simp only [firstFree, if_pos h]
      rcases ih with h1 | ⟨h2, h3⟩
      · exact Or.inl h1
      · exact Or.inr ⟨List.mem_cons_of_mem _ h2, h3⟩
    · simp only [firstFree, if_neg h]
      exact Or.inr ⟨List.mem_cons_self _ _, h⟩

theorem firstFree_eq_neg_iff {pool : List Int} (u : List Int)
    (hne : ∀ n ∈ pool, n ≠ -1) :
    (firstFree pool u = -1 ↔ ∀ n ∈ pool, n ∈ u) := by
  induction pool with
  | nil => simp [firstFree]
  | cons n rest ih =>
    have hne' : ∀ m ∈ rest, m ≠ -1 := fun m hm => hne m (List.mem_cons_of_mem _ hm)
    by_cases h : n ∈ u
    · simp only [firstFree, if_pos h]
      rw [ih hne']
      constructor
      · intro hall m hm
        rcases List.mem_cons.mp hm with rfl | hm'
        · exact h
        · exact hall m hm'
      · intro hall m hm
        exact hall m (List.mem_cons_of_mem _ hm)
    · simp only [firstFree, if_neg h]
      constructor
      · intro hn
        exact absurd hn (hne n (List.mem_cons_self _ _))
      · intro hall
        exact absurd (hall n (List.mem_cons_self _ _)) h

theorem firstFree_le {pool u : List Int} (hs : pool.Sorted (· ≤ ·))
    {d : Int} (hd : d ∈ pool) (hdu : d ∉ u) :
    firstFree pool u ≤ d := by
  induction pool with
  | nil => cases hd
  | cons n rest ih =>
    rw [List.sorted_cons] at hs
    by_cases h : n ∈ u
    · simp only [firstFree, if_pos h]
      rcases List.mem_cons.mp hd with rfl | hd'
      · exact absurd h hdu
      · exact ih hs.2 hd'
    · simp only [firstFree, if_neg h]
      rcases List.mem_cons.mp hd with rfl | hd'
      · exact le_refl d
      · exact hs.1 d hd'

theorem getprocess_num_free {pool u : List Int}
    (h : getprocess_num pool u ≠ -1) :
    getprocess_num pool u ∈ pool ∧ getprocess_num pool u ∉ u := by
  unfold getprocess_num at *
  by_cases hl : u.length = pool.length
  · simp [if_pos hl] at h
  · simp only [if_neg hl] at h ⊢
    rcases firstFree_spec pool u with h1 | h2
    · exact absurd h1 h
    · exact h2

theorem getprocess_num_eq_neg_iff {pool u : List Int}
    (hne : ∀ n ∈ pool, n ≠ -1)
    (hnd : u.Nodup) (hsub : ∀ x ∈ u, x ∈ pool) :
    (getprocess_num pool u = -1 ↔ ∀ n ∈ pool, n ∈ u) := by
  unfold getprocess_num
  by_cases hl : u.length = pool.length
  · simp only [if_pos hl]
    constructor
    · intro _
      have hsp : List.Subperm u pool :=
        List.subperm_of_subset hnd (fun x hx => hsub x hx)
      have hperm : u.Perm pool := hsp.perm_of_length_le (le_of_eq hl.symm)
      intro n hn
      exact hperm.mem_iff.mpr hn
    · intro _
      trivial
  · simp only [if_neg hl]
    exact firstFree_eq_neg_iff u hne

theorem getprocess_num_le {pool u : List Int}
    (hs : pool.Sorted (· ≤ ·)) (hne : ∀ n ∈ pool, n ≠ -1)
    (hnd : u.Nodup) (hsub : ∀ x ∈ u, x ∈ pool)
    {d : Int} (hd : d ∈ pool) (hdu : d ∉ u) :
    getprocess_num pool u ≠ -1 ∧ getprocess_num pool u ≤ d := by
  have hneg : ¬ getprocess_num pool u = -1 := by
    rw [getprocess_num_eq_neg_iff hne hnd hsub]
    intro hall
    exact hdu (hall d hd)
  refine ⟨hneg, ?_⟩
  unfold getprocess_num at *
  by_cases hl : u.length = pool.length
  · simp [if_pos hl] at hneg
  · simp only [if_neg hl]
    exact firstFree_le hs hd hdu

theorem firstFree_congr {pool : List Int} {u u' : List Int}
    (h : ∀ x, x ∈ u ↔ x ∈ u') :
    firstFree pool u = firstFree pool u' := by
  induction pool with
  | nil => rfl
  | cons n rest ih =>
    by_cases hn : n ∈ u
    · simp only [firstFree, if_pos hn, if_pos ((h n).mp hn)]
      exact ih
    · have hn' : n ∉ u' := fun hc => hn ((h n).mpr hc)
      simp only [firstFree, if_neg hn, if_neg hn']

theorem getprocess_num_perm_congr {pool u u' : List Int} (h : u.Perm u') :
    getprocess_num pool u = getprocess_num pool u' := by
  unfold getprocess_num
  rw [h.length_eq, firstFree_congr (fun x => h.mem_iff)]

/-! ### Invariant predicates -/

/-- The assignment relation is injective: no two PIDs hold the same core. -/
def Inj (d : Dict) : Prop :=
  ∀ p q v, dlookup d p = some v → dlookup d q = some v → p = q

/-- Every assigned core is in the in-use list `u`. -/
def InUsing (d : Dict) (u : List Int) : Prop :=
  ∀ p v, dlookup d p = some v → v ∈ u

/-- Every assigned core belongs to the pool. -/
def RangePool (pool : List Int) (d : Dict) : Prop :=
  ∀ p v, dlookup d p = some v → v ∈ pool

theorem dictInsert_of_lookup_none {d : Dict} {k : Int} (v : Int)
    (h : dlookup d k = none) : dictInsert d k v = d ++ [(k, v)] := by
  unfold dictInsert
  rw [h]
  rfl

/-! ### Survivor-pass lemmas -/

theorem survivorStep_lookup_notmem {old : Dict} {ml : List Int} {p : Int}
    (c : Dict) (h : p ∉ ml) :
    dlookup (survivorStep old ml c).2 p = dlookup c p := by
  induction ml generalizing c with
  | nil => rfl
  | cons pid rest ih =>
    have hne : p ≠ pid := fun hh => h (hh ▸ List.mem_cons_self _ _)
    have hrest : p ∉ rest := fun hh => h (List.mem_cons_of_mem _ hh)
    cases ho : dlookup old pid with
    | some pn =>
      simp only [survivorStep, ho]
      rw [ih _ hrest, dlookup_dictInsert_ne _ _ hne]
    | none =>
      simp only [survivorStep, ho]
      exact ih _ hrest

theorem survivorStep_lookup_of_mem {old : Dict} {ml : List Int} {p v : Int}
    (c : Dict) (hm : p ∈ ml) (ho : dlookup old p = some v) :
    dlookup (survivorStep old ml c).2 p = some v := by
  induction ml generalizing c with
  | nil => cases hm
  | cons pid rest ih =>
    by_cases hrest : p ∈ rest
    · cases hop : dlookup old pid with
      | some pn => simp only [survivorStep, hop]; exact ih _ hrest
      | none => simp only [survivorStep, hop]; exact ih _ hrest
    · have hp : p = pid := by
        rcases List.mem_cons.mp hm with h | h
        · exact h
        · exact absurd h hrest
      subst hp
      simp only [survivorStep, ho]
      rw [survivorStep_lookup_notmem _ hrest]
      exact dlookup_dictInsert_self c p v

theorem survivorStep_lookup_sub {old : Dict} {ml : List Int} {p v : Int}
    (c : Dict) (h : dlookup (survivorStep old ml c).2 p = some v) :
    dlookup c p = some v ∨ (p ∈ ml ∧ dlookup old p = some v) := by
  induction ml generalizing c with
  | nil => exact Or.inl h
  | cons pid rest ih =>
    cases ho : dlookup old pid with
    | some pn =>
      simp only [survivorStep, ho] at h
      rcases ih _ h with h1 | ⟨h2, h3⟩
      · by_cases hp : p = pid
        · subst hp
          rw [dlookup_dictInsert_self] at h1
          exact Or.inr ⟨List.mem_cons_self _ _, by rw [ho, h1]⟩
        · rw [dlookup_dictInsert_ne _ _ hp] at h1
          exact Or.inl h1
      · exact Or.inr ⟨List.mem_cons_of_mem _ h2, h3⟩
    | none =>
      simp only [survivorStep, ho] at h
      rcases ih _ h with h1 | ⟨h2, h3⟩
      · exact Or.inl h1
      · exact Or.inr ⟨List.mem_cons_of_mem _ h2, h3⟩

theorem survivorStep_using_mem {old : Dict} {ml : List Int} {x : Int}
    (c : Dict) (h : x ∈ (survivorStep old ml c).1) :
    ∃ p, p ∈ ml ∧ dlookup old p = some x := by
  induction ml generalizing c with
  | nil => cases h
  | cons pid rest ih =>
    cases ho : dlookup old pid with
    | some pn =>
      simp only [survivorStep, ho] at h
      rcases List.mem_cons.mp h with rfl | h'
      · exact ⟨pid, List.mem_cons_self _ _, ho⟩
      · obtain ⟨p, hp, hop⟩ := ih _ h'
        exact ⟨p, List.mem_cons_of_mem _ hp, hop⟩
    | none =>
      simp only [survivorStep, ho] at h
      obtain ⟨p, hp, hop⟩ := ih _ h
      exact ⟨p, List.mem_cons_of_mem _ hp, hop⟩

theorem survivorStep_lookup_using {old : Dict} {ml : List Int} {p v : Int}
    (c : Dict) (h : dlookup (survivorStep old ml c).2 p = some v) :
    v ∈ (survivorStep old ml c).1 ∨ dlookup c p = some v := by
  induction ml generalizing c with
  | nil => exact Or.inr h
  | cons pid rest ih =>
    cases ho : dlookup old pid with
    | some pn =>
      simp only [survivorStep, ho] at h ⊢
      rcases ih _ h with h1 | h2
      · exact Or.inl (List.mem_cons_of_mem _ h1)
      · by_cases hp : p = pid
        · subst hp
          rw [dlookup_dictInsert_self] at h2
          cases h2
          exact Or.inl (List.mem_cons_self _ _)
        · rw [dlookup_dictInsert_ne _ _ hp] at h2
          exact Or.inr h2
    | none =>
      simp only [survivorStep, ho] at h ⊢
      exact ih _ h

theorem survivorStep_using_nodup {old : Dict} {ml : List Int}
    (c : Dict) (hinj : Inj old) (hnd : ml.Nodup) :
    (survivorStep old ml c).1.Nodup := by
  induction ml generalizing c with
  | nil => exact List.nodup_nil
  | cons pid rest ih =>
    have hpid : pid ∉ rest := (List.nodup_cons.mp hnd).1
    have hrest : rest.Nodup := (List.nodup_cons.mp hnd).2
    cases ho : dlookup old pid with
    | some pn =>
      simp only [survivorStep, ho]
      refine List.nodup_cons.mpr ⟨?_, ih _ hrest⟩
      intro hmem
      obtain ⟨q, hq, hoq⟩ := survivorStep_using_mem _ hmem
      have : pid = q := hinj pid q pn ho hoq
      exact hpid (this ▸ hq)
    | none =>
      simp only [survivorStep, ho]
      exact ih _ hrest

theorem survivorStep_append (old : Dict) {ml : List Int}
    (c : Dict) (hnd : ml.Nodup) (hc : ∀ pid ∈ ml, dlookup c pid = none) :
    ∃ E : Dict, (survivorStep old ml c).2 = c ++ E ∧
      (survivorStep old ml c).1 = E.map Prod.snd := by
  induction ml generalizing c with
  | nil => exact ⟨[], by simp [survivorStep]⟩
  | cons pid rest ih =>
    have hpid : pid ∉ rest := (List.nodup_cons.mp hnd).1
    have hrest : rest.Nodup := (List.nodup_cons.mp hnd).2
    cases ho : dlookup old pid with
    | some pn =>
      simp only [survivorStep, ho]
      have hcpid : dlookup c pid = none := hc pid (List.mem_cons_self _ _)
      rw [dictInsert_of_lookup_none _ hcpid]
      have hc' : ∀ q ∈ rest, dlookup (c ++ [(pid, pn)]) q = none := by
        intro q hq
        have hq1 : dlookup c q = none := hc q (List.mem_cons_of_mem _ hq)
        rw [dlookup_append_none _ hq1]
        have : q ≠ pid := fun hh => hpid (hh ▸ hq)
        simp [dlookup, this]
      obtain ⟨E', h1, h2⟩ := ih _ hrest hc'
      refine ⟨(pid, pn) :: E', ?_, ?_⟩
      · rw [h1, List.append_cons, List.append_assoc]
        simp
      · simp [h2]
    | none =>
      simp only [survivorStep, ho]
      exact ih _ hrest fun q hq => hc q (List.mem_cons_of_mem _ hq)

/-! ### Newcomer-pass lemmas -/

theorem newcomerStep_using_eq (pool : List Int) (old : Dict)
    (ml u : List Int) (c : Dict) :
    (newcomerStep pool old ml u c).using_process =
      u ++ ((newcomerStep pool old ml u c).binds).map Prod.snd := by
  induction ml generalizing u c with
  | nil => simp [newcomerStep]
  | cons pid rest ih =>
    by_cases hs : (dlookup old pid).isSome
    · simp only [newcomerStep, if_pos hs]
      exact ih u c
    · simp only [newcomerStep, if_neg hs]
      by_cases hpn : getprocess_num pool u = -1
      · rw [if_pos hpn]
        simp
      · rw [if_neg hpn]
        simp only [List.map_cons]
        rw [ih]
        simp

theorem newcomerStep_binds_take (pool : List Int) (old : Dict)
    (ml u : List Int) (c : Dict) :
    ((newcomerStep pool old ml u c).binds).map Prod.fst =
      (ml.filter (fun pid => (dlookup old pid).isNone)).take
        (newcomerStep pool old ml u c).binds.length := by
  induction ml generalizing u c with
  | nil => simp [newcomerStep]
  | cons pid rest ih =>
    by_cases hs : (dlookup old pid).isSome
    · have hfalse : (dlookup old pid).isNone = false := by
        cases hd : dlookup old pid with
        | none => rw [hd] at hs; simp at hs
        | some w => rfl
      simp only [newcomerStep, if_pos hs, List.filter_cons, hfalse]
      simp only [Bool.false_eq_true, if_false]
      exact ih u c
    · have htrue : (dlookup old pid).isNone = true := by
        cases hd : dlookup old pid with
        | none => rfl
        | some w => rw [hd] at hs; simp at hs
      simp only [newcomerStep, if_neg hs, List.filter_cons, htrue, if_true]
      by_cases hpn : getprocess_num pool u = -1
      · rw [if_pos hpn]
        simp
      · rw [if_neg hpn]
        simp only [List.map_cons, List.length_cons, List.take_succ_cons]
        rw [ih]

theorem newcomerStep_break (pool : List Int) (old : Dict)
    (ml u : List Int) (c : Dict)
    (h : (newcomerStep pool old ml u c).binds.length <
      (ml.filter (fun pid => (dlookup old pid).isNone)).length) :
    getprocess_num pool (newcomerStep pool old ml u c).using_process = -1 := by
  induction ml generalizing u c with
  | nil => simp [newcomerStep] at h
  | cons pid rest ih =>
    by_cases hs : (dlookup old pid).isSome
    · have hfalse : (dlookup old pid).isNone = false := by
        cases hd : dlookup old pid with
        | none => rw [hd] at hs; simp at hs
        | some w => rfl
      simp only [newcomerStep, if_pos hs] at *
      simp only [List.filter_cons, hfalse, Bool.false_eq_true, if_false] at h
      exact ih u c h
    · have htrue : (dlookup old pid).isNone = true := by
        cases hd : dlookup old pid with
        | none => rfl
        | some w => rw [hd] at hs; simp at hs
      simp only [newcomerStep, if_neg hs] at *
      by_cases hpn : getprocess_num pool u = -1
      · rw [if_pos hpn]
        exact hpn
      · rw [if_neg hpn] at h ⊢
        simp only [List.filter_cons, htrue, if_true, List.length_cons,
          Nat.add_lt_add_iff_right] at h
        exact ih _ _ h

theorem newcomerStep_lookup_pres (pool : List Int) (old : Dict)
    (ml u : List Int) (c : Dict) {p : Int} (hp : (dlookup old p).isSome) :
    dlookup (newcomerStep pool old ml u c).cur_pid_arr p = dlookup c p := by
  induction ml generalizing u c with
  | nil => rfl
  | cons pid rest ih =>
    by_cases hs : (dlookup old pid).isSome
    · simp only [newcomerStep, if_pos hs]
      exact ih u c
    · simp only [newcomerStep, if_neg hs]
      by_cases hpn : getprocess_num pool u = -1
      · rw [if_pos hpn]
      · rw [if_neg hpn]
        have hne : p ≠ pid := by
          intro hh
          rw [hh] at hp
          exact hs hp
        rw [ih _ _, dlookup_dictInsert_ne _ _ hne]

theorem newcomerStep_lookup_sub (pool : List Int) (old : Dict)
    (ml u : List Int) (c : Dict) {q w : Int}
    (h : dlookup (newcomerStep pool old ml u c).cur_pid_arr q = some w) :
    dlookup c q = some w ∨ (q, w) ∈ (newcomerStep pool old ml u c).binds := by
  induction ml generalizing u c with
  | nil => exact Or.inl h
  | cons pid rest ih =>
    by_cases hs : (dlookup old pid).isSome
    · simp only [newcomerStep, if_pos hs] at h ⊢
      exact ih u c h
    · simp only [newcomerStep, if_neg hs] at h ⊢
      by_cases hpn : getprocess_num pool u = -1
      · rw [if_pos hpn] at h ⊢
        exact Or.inl h
      · rw [if_neg hpn] at h ⊢
        rcases ih _ _ h with h1 | h2
        · by_cases hq : q = pid
          · subst hq
            rw [dlookup_dictInsert_self] at h1
            cases h1
            exact Or.inr (List.mem_cons_self _ _)
          · rw [dlookup_dictInsert_ne _ _ hq] at h1
            exact Or.inl h1
        · exact Or.inr (List.mem_cons_of_mem _ h2)

theorem newcomerStep_inj (pool : List Int) (old : Dict)
    (ml u : List Int) (c : Dict)
    (hinj : Inj c) (hin : InUsing c u) :
    Inj (newcomerStep pool old ml u c).cur_pid_arr ∧
      InUsing (newcomerStep pool old ml u c).cur_pid_arr
        (newcomerStep pool old ml u c).using_process := by
  induction ml generalizing u c with
  | nil => exact ⟨hinj, hin⟩
  | cons pid rest ih =>
    by_cases hs : (dlookup old pid).isSome
    · simp only [newcomerStep, if_pos hs]
      exact ih u c hinj hin
    · simp only [newcomerStep, if_neg hs]
      by_cases hpn : getprocess_num pool u = -1
      · rw [if_pos hpn]
        exact ⟨hinj, hin⟩
      · rw [if_neg hpn]
        obtain ⟨hmem, hnotu⟩ := getprocess_num_free hpn
        have hinj' : Inj (dictInsert c pid (getprocess_num pool u)) := by
          intro a b v h1 h2
          by_cases ha : a = pid <;> by_cases hb : b = pid
          · rw [ha, hb]
          · subst ha
            rw [dlookup_dictInsert_self] at h1
            rw [dlookup_dictInsert_ne _ _ hb] at h2
            cases h1
            exact absurd (hin b _ h2) hnotu
          · subst hb
            rw [dlookup_dictInsert_self] at h2
            rw [dlookup_dictInsert_ne _ _ ha] at h1
            cases h2
            exact absurd (hin a _ h1) hnotu
          · rw [dlookup_dictInsert_ne _ _ ha] at h1
            rw [dlookup_dictInsert_ne _ _ hb] at h2
            exact hinj a b v h1 h2
        have hin' : InUsing (dictInsert c pid (getprocess_num pool u))
            (u ++ [getprocess_num pool u]) := by
          intro a v h1
          by_cases ha : a = pid
          · subst ha
            rw [dlookup_dictInsert_self] at h1
            cases h1
            exact List.mem_append_right _ (List.mem_singleton.mpr rfl)
          · rw [dlookup_dictInsert_ne _ _ ha] at h1
            exact List.mem_append_left _ (hin a v h1)
        exact ih _ _ hinj' hin'

theorem newcomerStep_pool (pool : List Int) (old : Dict)
    (ml u : List Int) (c : Dict) (hrp : RangePool pool c) :
    RangePool pool (newcomerStep pool old ml u c).cur_pid_arr := by
  induction ml generalizing u c with
  | nil => exact hrp
  | cons pid rest ih =>
    by_cases hs : (dlookup old pid).isSome
    · simp only [newcomerStep, if_pos hs]
      exact ih u c hrp
    · simp only [newcomerStep, if_neg hs]
      by_cases hpn : getprocess_num pool u = -1
      · rw [if_pos hpn]
        exact hrp
      · rw [if_neg hpn]
        obtain ⟨hmem, _⟩ := getprocess_num_free hpn
        have hrp' : RangePool pool (dictInsert c pid (getprocess_num pool u)) := by
          intro a v h1
          by_cases ha : a = pid
          · subst ha
            rw [dlookup_dictInsert_self] at h1
            cases h1
            exact hmem
          · rw [dlookup_dictInsert_ne _ _ ha] at h1
            exact hrp a v h1
        exact ih _ _ hrp'

theorem newcomerStep_binds_fresh (pool : List Int) (old : Dict)
    (ml u : List Int) (c : Dict) :
    ((newcomerStep pool old ml u c).binds.map Prod.snd).Nodup ∧
      ∀ v ∈ (newcomerStep pool old ml u c).binds.map Prod.snd, v ∉ u := by
  induction ml generalizing u c with
  | nil => exact ⟨List.nodup_nil, by simp [newcomerStep]⟩
  | cons pid rest ih =>
    by_cases hs : (dlookup old pid).isSome
    · simp only [newcomerStep, if_pos hs]
      exact ih u c
    · simp only [newcomerStep, if_neg hs]
      by_cases hpn : getprocess_num pool u = -1
      · rw [if_pos hpn]
        exact ⟨List.nodup_nil, by simp⟩
      · rw [if_neg hpn]
        obtain ⟨_, hnotu⟩ := getprocess_num_free hpn
        obtain ⟨hnd, hfr⟩ := ih (u ++ [getprocess_num pool u]) (dictInsert c pid _)
        simp only [List.map_cons]
        constructor
        · refine List.nodup_cons.mpr ⟨?_, hnd⟩
          intro hmem
          have := hfr _ hmem
          exact this (List.mem_append_right _ (List.mem_singleton.mpr rfl))
        · intro v hv
          rcases List.mem_cons.mp hv with rfl | hv'
          · exact hnotu
          · intro hvu
            exact hfr v hv' (List.mem_append_left _ hvu)

theorem newcomerStep_lookup_nofilter (pool : List Int) (old : Dict)
    (ml u : List Int) (c : Dict) {q : Int}
    (h : (newcomerStep pool old ml u c).binds.filter
      (fun b => b.1 = q) = []) :
    dlookup (newcomerStep pool old ml u c).cur_pid_arr q = dlookup c q := by
  induction ml generalizing u c with
  | nil => rfl
  | cons pid rest ih =>
    by_cases hs : (dlookup old pid).isSome
    · simp only [newcomerStep, if_pos hs] at h ⊢
      exact ih u c h
    · simp only [newcomerStep, if_neg hs] at h ⊢
      by_cases hpn : getprocess_num pool u = -1
      · rw [if_pos hpn]
      · rw [if_neg hpn] at h ⊢
        by_cases hq : pid = q
        · exfalso
          simp only [List.filter_cons] at h
          rw [if_pos (by simp [hq])] at h
          exact List.cons_ne_nil _ _ h
        · simp only [List.filter_cons] at h
          rw [if_neg (by simp [hq])] at h
          rw [ih _ _ h]
          exact dlookup_dictInsert_ne _ _ (fun hh => hq hh.symm)

theorem newcomerStep_lookup_last (pool : List Int) (old : Dict)
    (ml u : List Int) (c : Dict) {q w : Int} {ws : List Int}
    (h : (((newcomerStep pool old ml u c).binds.filter
      (fun b => b.1 = q)).map Prod.snd).reverse = w :: ws) :
    dlookup (newcomerStep pool old ml u c).cur_pid_arr q = some w := by
  induction ml generalizing u c w ws with
  | nil => simp [newcomerStep] at h
  | cons pid rest ih =>
    by_cases hs : (dlookup old pid).isSome
    · simp only [newcomerStep, if_pos hs] at h ⊢
      exact ih u c h
    · simp only [newcomerStep, if_neg hs] at h ⊢
      by_cases hpn : getprocess_num pool u = -1
      · rw [if_pos hpn] at h ⊢
        simp at h
      · rw [if_neg hpn] at h ⊢
        by_cases hq : pid = q
        · simp only [List.filter_cons] at h
          rw [if_pos (by simp [hq])] at h
          simp only [List.map_cons, List.reverse_cons] at h
          cases hrev : (((newcomerStep pool old rest (u ++ [getprocess_num pool u])
              (dictInsert c pid (getprocess_num pool u))).binds.filter
              (fun b => b.1 = q)).map Prod.snd).reverse with
          | nil =>
            rw [hrev] at h
            simp only [List.nil_append] at h
            have hw : getprocess_num pool u = w := (List.cons.injEq _ _ _ _ ▸ h).1
            have hfilt : (newcomerStep pool old rest (u ++ [getprocess_num pool u])
                (dictInsert c pid (getprocess_num pool u))).binds.filter
                (fun b => b.1 = q) = [] := by
              have := congrArg List.reverse hrev
              simp only [List.reverse_reverse, List.reverse_nil] at this
              exact List.map_eq_nil_iff.mp this
            rw [newcomerStep_lookup_nofilter _ _ _ _ _ hfilt]
            rw [← hq, ← hw]
            exact dlookup_dictInsert_self c pid _
          | cons e es =>
            rw [hrev] at h
            have he : e = w := by
              simpa using congrArg (fun l => l.head?) h
            exact ih _ _ (he ▸ hrev)
        · simp only [List.filter_cons] at h
          rw [if_neg (by simp [hq])] at h
          exact ih _ _ h

theorem newcomerStep_append (pool : List Int) (old : Dict)
    (ml u : List Int) (c : Dict) (hnd : ml.Nodup)
    (hc : ∀ pid ∈ ml, dlookup old pid = none → dlookup c pid = none) :
    (newcomerStep pool old ml u c).cur_pid_arr =
      c ++ (newcomerStep pool old ml u c).binds := by
  induction ml generalizing u c with
  | nil => simp [newcomerStep]
  | cons pid rest ih =>
    have hpid : pid ∉ rest := (List.nodup_cons.mp hnd).1
    have hrest : rest.Nodup := (List.nodup_cons.mp hnd).2
    by_cases hs : (dlookup old pid).isSome
    · simp only [newcomerStep, if_pos hs]
      exact ih u c hrest fun q hq => hc q (List.mem_cons_of_mem _ hq)
    · simp only [newcomerStep, if_neg hs]
      by_cases hpn : getprocess_num pool u = -1
      · rw [if_pos hpn]
        simp
      · rw [if_neg hpn]
        have holdpid : dlookup old pid = none := by
          cases hd : dlookup old pid with
          | none => rfl
          | some v => rw [hd] at hs; simp at hs
        have hcpid : dlookup c pid = none :=
          hc pid (List.mem_cons_self _ _) holdpid
        rw [dictInsert_of_lookup_none _ hcpid] at *
        have hc' : ∀ q ∈ rest, dlookup old q = none →
            dlookup (c ++ [(pid, getprocess_num pool u)]) q = none := by
          intro q hq hqold
          have hq1 : dlookup c q = none := hc q (List.mem_cons_of_mem _ hq) hqold
          rw [dlookup_append_none _ hq1]
          have : q ≠ pid := fun hh => hpid (hh ▸ hq)
          simp [dlookup, this]
        rw [ih _ _ hrest hc']
        rw [List.append_cons, List.append_assoc]
        simp

/-! ### Key uniqueness of the built dictionaries -/

theorem dlookup_none_iff_notmem_fst {d : Dict} {k : Int} :
    dlookup d k = none ↔ k ∉ d.map Prod.fst := by
  induction d with
  | nil => simp [dlookup]
  | cons e rest ih =>
    obtain ⟨k', w⟩ := e
    by_cases hk : k = k'
    · subst hk
      simp [dlookup]
    · simp only [dlookup, if_neg hk, List.map_cons, List.mem_cons]
      rw [ih]
      constructor
      · intro h hc
        rcases hc with hc | hc
        · exact hk hc
        · exact h hc
      · intro h hc
        exact h (Or.inr hc)

theorem replaceEntry_map_fst (d : Dict) (k v : Int) :
    (replaceEntry d k v).map Prod.fst = d.map Prod.fst := by
  induction d with
  | nil => rfl
  | cons e rest ih =>
    obtain ⟨k', w⟩ := e
    by_cases hk : k' = k
    · rw [replaceEntry, if_pos hk]
      simp [hk]
    · rw [replaceEntry, if_neg hk]
      simp [ih]

theorem dictInsert_keys_nodup {d : Dict} (k v : Int)
    (h : (d.map Prod.fst).Nodup) :
    ((dictInsert d k v).map Prod.fst).Nodup := by
  unfold dictInsert
  by_cases hs : (dlookup d k).isSome
  · rw [if_pos hs, replaceEntry_map_fst]
    exact h
  · rw [if_neg hs]
    have hk : k ∉ d.map Prod.fst := by
      rw [← dlookup_none_iff_notmem_fst]
      cases hd : dlookup d k with
      | none => rfl
      | some w => rw [hd] at hs; simp at hs
    rw [List.map_append, show ([(k, v)] : Dict).map Prod.fst = [k] from rfl]
    have hperm : ((d.map Prod.fst) ++ [k]).Perm (k :: d.map Prod.fst) :=
      List.perm_append_singleton _ _
    rw [hperm.nodup_iff]
    exact List.nodup_cons.mpr ⟨hk, h⟩

theorem survivorStep_keys_nodup {old : Dict} {ml : List Int} (c : Dict)
    (h : (c.map Prod.fst).Nodup) :
    ((survivorStep old ml c).2.map Prod.fst).Nodup := by
  induction ml generalizing c with
  | nil => exact h
  | cons pid rest ih =>
    cases ho : dlookup old pid with
    | some pn =>
      simp only [survivorStep, ho]
      exact ih _ (dictInsert_keys_nodup _ _ h)
    | none =>
      simp only [survivorStep, ho]
      exact ih _ h

theorem newcomerStep_keys_nodup (pool : List Int) (old : Dict)
    (ml u : List Int) (c : Dict) (h : (c.map Prod.fst).Nodup) :
    ((newcomerStep pool old ml u c).cur_pid_arr.map Prod.fst).Nodup := by
  induction ml generalizing u c with
  | nil => exact h
  | cons pid rest ih =>
    by_cases hs : (dlookup old pid).isSome
    · simp only [newcomerStep, if_pos hs]
      exact ih u c h
    · simp only [newcomerStep, if_neg hs]
      by_cases hpn : getprocess_num pool u = -1
      · rw [if_pos hpn]
        exact h
      · rw [if_neg hpn]
        exact ih _ _ (dictInsert_keys_nodup _ _ h)

theorem dlookup_of_mem_of_keys_nodup {d : Dict} {a b : Int}
    (hnd : (d.map Prod.fst).Nodup) (hmem : (a, b) ∈ d) :
    dlookup d a = some b := by
  induction d with
  | nil => cases hmem
  | cons e rest ih =>
    obtain ⟨k, w⟩ := e
    rcases List.mem_cons.mp hmem with he | he
    · cases he
      simp [dlookup]
    · have hk : a ≠ k := by
        intro hh
        subst hh
        have : a ∈ rest.map Prod.fst := List.mem_map.mpr ⟨(a, b), he, rfl⟩
        exact (List.nodup_cons.mp (by simpa using hnd)).1 this
      simp only [dlookup, if_neg hk]
      exact ih (List.nodup_cons.mp (by simpa using hnd)).2 he

/-! ### Reconciliation-level invariants -/

theorem Inj_nil : Inj ([] : Dict) := by
  intro p q v h1 _
  simp [dlookup] at h1

theorem RangePool_nil (pool : List Int) : RangePool pool ([] : Dict) := by
  intro p v h1
  simp [dlookup] at h1

theorem reconcile_inj (pool : List Int) (old : Dict) (ml : List Int)
    (h : Inj old) : Inj (reconcile pool old ml).cur_pid_arr := by
  unfold reconcile
  have hinj1 : Inj (survivorStep old ml []).2 := by
    intro p q v h1 h2
    rcases survivorStep_lookup_sub _ h1 with hc | ⟨_, ho1⟩
    · simp [dlookup] at hc
    · rcases survivorStep_lookup_sub _ h2 with hc | ⟨_, ho2⟩
      · simp [dlookup] at hc
      · exact h p q v ho1 ho2
  have hin1 : InUsing (survivorStep old ml []).2 (survivorStep old ml []).1 := by
    intro p v h1
    rcases survivorStep_lookup_using _ h1 with hu | hc
    · exact hu
    · simp [dlookup] at hc
  exact (newcomerStep_inj pool old ml _ _ hinj1 hin1).1

theorem reconcile_pool (pool : List Int) (old : Dict) (ml : List Int)
    (h : RangePool pool old) : RangePool pool (reconcile pool old ml).cur_pid_arr := by
  unfold reconcile
  have hrp1 : RangePool pool (survivorStep old ml []).2 := by
    intro p v h1
    rcases survivorStep_lookup_sub _ h1 with hc | ⟨_, ho1⟩
    · simp [dlookup] at hc
    · exact h p v ho1
  exact newcomerStep_pool pool old ml _ _ hrp1

theorem reconcile_keys_nodup (pool : List Int) (old : Dict) (ml : List Int) :
    ((reconcile pool old ml).cur_pid_arr.map Prod.fst).Nodup := by
  unfold reconcile
  exact newcomerStep_keys_nodup pool old ml _ _
    (survivorStep_keys_nodup _ List.nodup_nil)

theorem runCycles_inj (pool : List Int) (old : Dict) (mls : List (List Int))
    (h : Inj old) : Inj (runCycles pool old mls) := by
  induction mls generalizing old with
  | nil => exact h
  | cons ml rest ih => exact ih _ (reconcile_inj pool old ml h)

theorem runCycles_pool (pool : List Int) (old : Dict) (mls : List (List Int))
    (h : RangePool pool old) : RangePool pool (runCycles pool old mls) := by
  induction mls generalizing old with
  | nil => exact h
  | cons ml rest ih => exact ih _ (reconcile_pool pool old ml h)

theorem process_num_nodup : process_num.Nodup := by decide

theorem process_num_sorted : process_num.Sorted (· ≤ ·) := by decide

theorem process_num_ne_neg : ∀ n ∈ process_num, n ≠ -1 := by decide

/-! ### Claim theorems -/

/-- C1: for every reconciliation that runs, the post-state assignment map is
injective on core identifiers — starting from the empty retained state, after
any sequence of observed PID lists, no two distinct PIDs are mapped to the
same core identifier. -/
theorem claim_C1_no_double_binding (mls : List (List Int)) (p q v : Int)
    (hp : dlookup (runCycles process_num [] mls) p = some v)
    (hq : dlookup (runCycles process_num [] mls) q = some v) :
    p = q :=
  runCycles_inj process_num [] mls Inj_nil p q v hp hq

/-- Witness for C1 at a concrete run of two observed PIDs. -/
theorem claim_C1_no_double_binding_witness :
    dlookup (runCycles process_num [] [[100, 101]]) 100 = some 1 ∧
      (100 : Int) = 100 :=
  ⟨by decide,
    claim_C1_no_double_binding [[100, 101]] 100 100 1 (by decide) (by decide)⟩

/-- C2: `getprocess_num` returns the lowest-valued pool core not currently in
use, returns `-1` exactly when every pool core is in use, and depends only on
the in-use list viewed as a set (permutation-invariant), for any in-use list
that is a duplicate-free list of pool cores. -/
theorem claim_C2_allocate_lowest (u : List Int) (hnd : u.Nodup)
    (hsub : ∀ x ∈ u, x ∈ process_num) :
    (getprocess_num process_num u = -1 ↔ ∀ c ∈ process_num, c ∈ u) ∧
    (getprocess_num process_num u ≠ -1 →
      getprocess_num process_num u ∈ process_num ∧
      getprocess_num process_num u ∉ u ∧
      ∀ d ∈ process_num, d ∉ u → getprocess_num process_num u ≤ d) ∧
    (∀ u', u.Perm u' →
      getprocess_num process_num u = getprocess_num process_num u') := by
  refine ⟨getprocess_num_eq_neg_iff process_num_ne_neg hnd hsub, ?_, ?_⟩
  · intro h
    obtain ⟨h1, h2⟩ := getprocess_num_free h
    refine ⟨h1, h2, ?_⟩
    intro d hd hdu
    exact (getprocess_num_le process_num_sorted process_num_ne_neg
      hnd hsub hd hdu).2
  · intro u' hperm
    exact getprocess_num_perm_congr hperm

/-- Witness for C2 at the in-use list `[1, 2]`. -/
theorem claim_C2_allocate_lowest_witness :
    (getprocess_num process_num [1, 2] = -1 ↔
      ∀ c ∈ process_num, c ∈ ([1, 2] : List Int)) ∧
    (getprocess_num process_num [1, 2] ≠ -1 →
      getprocess_num process_num [1, 2] ∈ process_num ∧
      getprocess_num process_num [1, 2] ∉ ([1, 2] : List Int) ∧
      ∀ d ∈ process_num, d ∉ ([1, 2] : List Int) →
        getprocess_num process_num [1, 2] ≤ d) ∧
    (∀ u', List.Perm [1, 2] u' →
      getprocess_num process_num [1, 2] = getprocess_num process_num u') :=
  claim_C2_allocate_lowest [1, 2] (by decide) (by decide)

/-- C3: survivor stability — a PID assigned core `c` in the retained state
that appears in the next observed list is still assigned `c` after the next
reconciliation. -/
theorem claim_C3_survivor_stability (old : Dict) (ml : List Int) (p c : Int)
    (h1 : dlookup old p = some c) (h2 : p ∈ ml) :
    dlookup (reconcile process_num old ml).cur_pid_arr p = some c := by
  unfold reconcile
  have hiss : (dlookup old p).isSome := by rw [h1]; rfl
  rw [newcomerStep_lookup_pres _ _ _ _ _ hiss]
  exact survivorStep_lookup_of_mem _ h2 h1

/-- Witness for C3: PID 100 with core 1 survives the observation `[100, 101]`. -/
theorem claim_C3_survivor_stability_witness :
    dlookup [(100, 1)] 100 = some 1 ∧ (100 : Int) ∈ [100, 101] ∧
      dlookup (reconcile process_num [(100, 1)] [100, 101]).cur_pid_arr 100 =
        some 1 :=
  ⟨by decide, by decide,
    claim_C3_survivor_stability [(100, 1)] [100, 101] 100 1
      (by decide) (by decide)⟩

/-- A reachable retained state for the C4 counterexample: eight compiler
processes pinned in one cycle, occupying cores 1-7 and 9. -/
def c4CexState : Dict :=
  runCycles process_num [] [[100, 101, 102, 103, 104, 105, 106, 107]]

/-- The next cycle's observed list for the C4 counterexample: the PIDs
101-107 each reported twice (merged from both watched executable names)
plus the newcomer 200; PID 100 has exited. -/
def c4CexObs : List Int :=
  [101, 102, 103, 104, 105, 106, 107, 101, 102, 103, 104, 105, 106, 107, 200]

/-- Counterexample to C4 as stated: PID 100 held core 1 and is absent from
the next observed list, yet in that next cycle `getprocess_num` returns `-1`
(the survivor pass pushed 14 entries — seven cores twice — into the in-use
list, matching the pool length), so core 1 is never returned by the
allocator: no bind is issued at all and the newcomer 200 stays unassigned
even though core 1 is free and in the pool. -/
theorem claim_C4_release_counterexample :
    dlookup c4CexState 100 = some 1 ∧
    (100 : Int) ∉ c4CexObs ∧
    (1 : Int) ∈ process_num ∧
    (1 : Int) ∉ (survivorStep c4CexState c4CexObs []).1 ∧
    getprocess_num process_num ((survivorStep c4CexState c4CexObs []).1) = -1 ∧
    (reconcile process_num c4CexState c4CexObs).binds = [] ∧
    dlookup (reconcile process_num c4CexState c4CexObs).cur_pid_arr 200 =
      none := by decide

/-- C4 amended: if PID `p` held core `c` in a reachable retained state and
is absent from the next cycle's observed list, then — for every observed
list, duplicates included — `p` is absent from the reconciled assignment
and `c` is not in the in-use list after the survivor pass; and provided
that observed list contains no duplicate PIDs, the allocator also does not
fail and returns a core no higher than `c`. -/
theorem claim_C4_release_amended (mls : List (List Int)) (ml : List Int)
    (p c : Int)
    (hp : dlookup (runCycles process_num [] mls) p = some c)
    (hout : p ∉ ml) :
    dlookup (reconcile process_num (runCycles process_num [] mls) ml).cur_pid_arr
        p = none ∧
    c ∉ (survivorStep (runCycles process_num [] mls) ml []).1 ∧
    (ml.Nodup →
      getprocess_num process_num
        ((survivorStep (runCycles process_num [] mls) ml []).1) ≠ -1 ∧
      getprocess_num process_num
        ((survivorStep (runCycles process_num [] mls) ml []).1) ≤ c) := by
  have hinj : Inj (runCycles process_num [] mls) :=
    runCycles_inj _ _ _ Inj_nil
  have hrp : RangePool process_num (runCycles process_num [] mls) :=
    runCycles_pool _ _ _ (RangePool_nil _)
  have hcnot : c ∉ (survivorStep (runCycles process_num [] mls) ml []).1 := by
    intro hc
    obtain ⟨q, hq, hoq⟩ := survivorStep_using_mem _ hc
    have hqp : q = p := hinj q p c hoq hp
    exact hout (hqp ▸ hq)
  refine ⟨?_, hcnot, ?_⟩
  · unfold reconcile
    have hiss : (dlookup (runCycles process_num [] mls) p).isSome := by
      rw [hp]; rfl
    rw [newcomerStep_lookup_pres _ _ _ _ _ hiss]
    rw [survivorStep_lookup_notmem _ hout]
    rfl
  · intro hnd
    have hu_nd : (survivorStep (runCycles process_num [] mls) ml []).1.Nodup :=
      survivorStep_using_nodup _ hinj hnd
    have hu_sub : ∀ x ∈ (survivorStep (runCycles process_num [] mls) ml []).1,
        x ∈ process_num := by
      intro x hx
      obtain ⟨q, hq, hoq⟩ := survivorStep_using_mem _ hx
      exact hrp q x hoq
    have hcpool : c ∈ process_num := hrp p c hp
    exact getprocess_num_le process_num_sorted process_num_ne_neg
      hu_nd hu_sub hcpool hcnot

/-- Witness for the amended C4: PID 100 exits, its absence and core 1's
freedom are concrete, and on the duplicate-free observation `[101, 102]`
the allocator facts are discharged as well. -/
theorem claim_C4_release_amended_witness :
    dlookup (runCycles process_num [] [[100, 101]]) 100 = some 1 ∧
    (100 : Int) ∉ ([101, 102] : List Int) ∧
    dlookup (reconcile process_num (runCycles process_num [] [[100, 101]])
        [101, 102]).cur_pid_arr 100 = none ∧
    (1 : Int) ∉ (survivorStep (runCycles process_num [] [[100, 101]])
        [101, 102] []).1 ∧
    (getprocess_num process_num
        ((survivorStep (runCycles process_num [] [[100, 101]]) [101, 102] []).1)
          ≠ -1 ∧
      getprocess_num process_num
        ((survivorStep (runCycles process_num [] [[100, 101]]) [101, 102] []).1)
          ≤ 1) ∧
    dlookup (reconcile process_num c4CexState c4CexObs).cur_pid_arr 100 =
      none ∧
    (1 : Int) ∉ (survivorStep c4CexState c4CexObs []).1 :=
  ⟨by decide, by decide,
    (claim_C4_release_amended [[100, 101]] [101, 102] 100 1
      (by decide) (by decide)).1,
    (claim_C4_release_amended [[100, 101]] [101, 102] 100 1
      (by decide) (by decide)).2.1,
    (claim_C4_release_amended [[100, 101]] [101, 102] 100 1
      (by decide) (by decide)).2.2 (by decide),
    (claim_C4_release_amended [[100, 101, 102, 103, 104, 105, 106, 107]]
      c4CexObs 100 1 (by decide) (by decide)).1,
    (claim_C4_release_amended [[100, 101, 102, 103, 104, 105, 106, 107]]
      c4CexObs 100 1 (by decide) (by decide)).2.1⟩

/-- C5: every core identifier in any reachable post-reconciliation
assignment belongs to the configured core pool, and the pool itself is the
fixed startup constant (it is a closed definition that no operation of the
embedding takes as mutable state or returns modified). -/
theorem claim_C5_core_pool_bound (mls : List (List Int)) (p v : Int)
    (h : dlookup (runCycles process_num [] mls) p = some v) :
    v ∈ process_num ∧
      process_num = [1, 2, 3, 4, 5, 6, 7, 9, 10, 11, 12, 13, 14, 15] :=
  ⟨runCycles_pool process_num [] mls (RangePool_nil _) p v h, rfl⟩

/-- Witness for C5 at a single-cycle run. -/
theorem claim_C5_core_pool_bound_witness :
    dlookup (runCycles process_num [] [[100]]) 100 = some 1 ∧
    ((1 : Int) ∈ process_num ∧
      process_num = [1, 2, 3, 4, 5, 6, 7, 9, 10, 11, 12, 13, 14, 15]) :=
  ⟨by decide, claim_C5_core_pool_bound [[100]] 100 1 (by decide)⟩

/-- C6: newcomers are bound in observed order (the bound PIDs are exactly a
prefix of the newcomer occurrences), when the bind list stops short of the
newcomers the allocator had returned `-1` (pool exhausted) and every
unbound newcomer has no assignment entry, and the cycle still completes
normally: the loop continues into the next cycle with the reconciled
state. -/
theorem claim_C6_pool_exhaustion (old : Dict) (ml : List Int) :
    (reconcile process_num old ml).binds.map Prod.fst =
      (ml.filter (fun pid => (dlookup old pid).isNone)).take
        (reconcile process_num old ml).binds.length ∧
    ((reconcile process_num old ml).binds.length <
        (ml.filter (fun pid => (dlookup old pid).isNone)).length →
      getprocess_num process_num
        (reconcile process_num old ml).using_process = -1) ∧
    (∀ pid ∈ ml.filter (fun pid => (dlookup old pid).isNone),
      pid ∉ (reconcile process_num old ml).binds.map Prod.fst →
      dlookup (reconcile process_num old ml).cur_pid_arr pid = none) ∧
    (∀ rest, runCycles process_num old (ml :: rest) =
      runCycles process_num (reconcile process_num old ml).cur_pid_arr rest) := by
  refine ⟨?_, ?_, ?_, fun rest => rfl⟩
  · unfold reconcile
    exact newcomerStep_binds_take process_num old ml _ _
  · unfold reconcile
    exact newcomerStep_break process_num old ml _ _
  · intro pid hmem hnot
    have hpred := (List.mem_filter.mp hmem).2
    have hnone : dlookup old pid = none :=
      Option.isNone_iff_eq_none.mp hpred
    have hc1 : dlookup (survivorStep old ml []).2 pid = none := by
      cases hd : dlookup (survivorStep old ml []).2 pid with
      | none => rfl
      | some w =>
        rcases survivorStep_lookup_sub _ hd with hcx | ⟨_, ho⟩
        · simp [dlookup] at hcx
        · rw [hnone] at ho
          cases ho
    unfold reconcile at hnot ⊢
    cases hd : dlookup (newcomerStep process_num old ml
        (survivorStep old ml []).1 (survivorStep old ml []).2).cur_pid_arr pid with
    | none => rfl
    | some w =>
      rcases newcomerStep_lookup_sub _ _ _ _ _ hd with h1 | h2
      · rw [hc1] at h1
        cases h1
      · exact absurd (List.mem_map.mpr ⟨(pid, w), h2, rfl⟩) hnot

/-- Witness for C6: fifteen newcomers into the fourteen-core pool; the
fifteenth observed PID 114 is left without an assignment entry. -/
theorem claim_C6_pool_exhaustion_witness :
    (114 : Int) ∈ (([100, 101, 102, 103, 104, 105, 106, 107, 108, 109, 110,
        111, 112, 113, 114] : List Int).filter
        (fun pid => (dlookup ([] : Dict) pid).isNone)) ∧
    (114 : Int) ∉ (reconcile process_num [] [100, 101, 102, 103, 104, 105,
        106, 107, 108, 109, 110, 111, 112, 113, 114]).binds.map Prod.fst ∧
    dlookup (reconcile process_num [] [100, 101, 102, 103, 104, 105, 106,
        107, 108, 109, 110, 111, 112, 113, 114]).cur_pid_arr 114 = none :=
  ⟨by decide, by decide,
    (claim_C6_pool_exhaustion [] [100, 101, 102, 103, 104, 105, 106, 107,
      108, 109, 110, 111, 112, 113, 114]).2.2.1 114 (by decide) (by decide)⟩

/-- C7: observer fault tolerance — a failed or empty lookup for one watched
executable name contributes the empty list, the other name's lookup result
still contributes in full, and the failure never reaches the reconciliation
step, which receives the same observed list as if the failed lookup had
returned nothing. -/
theorem claim_C7_observer_tolerance :
    (∀ r2 : Option (List Int), observePhase none r2 = observePhase (some []) r2) ∧
    (∀ r1 : Option (List Int), observePhase r1 none = observePhase r1 (some [])) ∧
    (∀ l1 l2 : List Int, observePhase (some l1) (some l2) = l1 ++ l2) ∧
    (∀ (old : Dict) (r2 : Option (List Int)),
      reconcile process_num old (observePhase none r2) =
        reconcile process_num old (observePhase (some []) r2)) :=
  ⟨fun _ => rfl, fun _ => rfl, fun _ _ => rfl, fun _ _ => rfl⟩

/-- Counterexample to C8 as stated: with the duplicate observation
`[100, 100]` the final in-use list contains core 1 but the fresh assignment
map's cores are exactly `[2]` — the in-use set is strictly larger than the
set of assigned cores. -/
theorem claim_C8_atomic_swap_counterexample :
    (1 : Int) ∈ (reconcile process_num [] [100, 100]).using_process ∧
    (1 : Int) ∉ (reconcile process_num [] [100, 100]).cur_pid_arr.map
      Prod.snd := by decide

/-- C8 amended: when the observed list contains no duplicate PIDs, the
in-use list at the end of a reconciliation is exactly the list of core
identifiers of the freshly built assignment map, and both are installed
together as the retained state the loop continues with. -/
theorem claim_C8_atomic_swap_amended (old : Dict) (ml : List Int)
    (hnd : ml.Nodup) :
    (reconcile process_num old ml).using_process =
      (reconcile process_num old ml).cur_pid_arr.map Prod.snd ∧
    ∀ rest, runCycles process_num old (ml :: rest) =
      runCycles process_num (reconcile process_num old ml).cur_pid_arr rest := by
  refine ⟨?_, fun rest => rfl⟩
  unfold reconcile
  obtain ⟨E, hE2, hE1⟩ := survivorStep_append old [] hnd
    (fun pid _ => rfl)
  have hc' : ∀ pid ∈ ml, dlookup old pid = none →
      dlookup (survivorStep old ml []).2 pid = none := by
    intro q hq hqnone
    cases hd : dlookup (survivorStep old ml []).2 q with
    | none => rfl
    | some w =>
      rcases survivorStep_lookup_sub _ hd with hcx | ⟨_, ho⟩
      · simp [dlookup] at hcx
      · rw [hqnone] at ho
        cases ho
  rw [newcomerStep_append _ _ _ _ _ hnd hc', newcomerStep_using_eq,
    List.map_append]
  congr 1
  rw [hE2, hE1]
  simp

/-- Witness for the amended C8 at the duplicate-free observation
`[100, 101]`. -/
theorem claim_C8_atomic_swap_amended_witness :
    ([100, 101] : List Int).Nodup ∧
    ((reconcile process_num [] [100, 101]).using_process =
      (reconcile process_num [] [100, 101]).cur_pid_arr.map Prod.snd ∧
    ∀ rest, runCycles process_num [] ([100, 101] :: rest) =
      runCycles process_num
        (reconcile process_num [] [100, 101]).cur_pid_arr rest) :=
  ⟨by decide, claim_C8_atomic_swap_amended [] [100, 101] (by decide)⟩

/-- C9: the spec's concrete scenario with core pool `[1, 2, 3]` — cycle 1
observing `[100, 101, 102]` yields `{100 : 1, 101 : 2, 102 : 3}`, and cycle 2
observing `[101, 102, 103]` yields `{101 : 2, 102 : 3, 103 : 1}`: the
survivors keep their cores and 103 receives the released core 1. -/
theorem claim_C9_scenario :
    runCycles [1, 2, 3] [] [[100, 101, 102]] =
      [(100, 1), (101, 2), (102, 3)] ∧
    runCycles [1, 2, 3] [] [[100, 101, 102], [101, 102, 103]] =
      [(101, 2), (102, 3), (103, 1)] := by decide

/-- C10: duplicate newcomer occurrences — one bind command is issued per
processed occurrence (the count of the PID among the bound PIDs equals its
count among the processed newcomer occurrences), the assignment records the
LAST core allocated to the PID, every earlier core allocated to it is still
in the final in-use list while belonging to no PID of the fresh assignment,
and such an orphaned core is absent from the in-use list any next cycle's
survivor pass rebuilds, hence allocatable again. The hypothesis lists the
cores allocated to `p` latest-first. -/
theorem claim_C10_duplicate_newcomer (old : Dict) (ml : List Int) (p w : Int)
    (ws : List Int)
    (hrev : ((((reconcile process_num old ml).binds.filter
        (fun b => b.1 = p)).map Prod.snd).reverse) = w :: ws) :
    ((reconcile process_num old ml).binds.map Prod.fst).count p =
      ((ml.filter (fun pid => (dlookup old pid).isNone)).take
        (reconcile process_num old ml).binds.length).count p ∧
    dlookup (reconcile process_num old ml).cur_pid_arr p = some w ∧
    ∀ v ∈ ws,
      v ∈ (reconcile process_num old ml).using_process ∧
      v ∉ (reconcile process_num old ml).cur_pid_arr.map Prod.snd ∧
      ∀ ml', v ∉ (survivorStep (reconcile process_num old ml).cur_pid_arr
        ml' []).1 := by
  unfold reconcile at hrev ⊢
  refine ⟨?_, newcomerStep_lookup_last _ _ _ _ _ hrev, ?_⟩
  · exact congrArg (List.count p) (newcomerStep_binds_take process_num old ml _ _)
  · intro v hv
    have hvbf : v ∈ (((newcomerStep process_num old ml
        (survivorStep old ml []).1 (survivorStep old ml []).2).binds.filter
        (fun b => b.1 = p)).map Prod.snd) := by
      rw [← List.mem_reverse, hrev]
      exact List.mem_cons_of_mem _ hv
    obtain ⟨b, hbfil, hbsnd⟩ := List.mem_map.mp hvbf
    have hbbinds : b ∈ (newcomerStep process_num old ml
        (survivorStep old ml []).1 (survivorStep old ml []).2).binds :=
      List.mem_of_mem_filter hbfil
    have hbp : b.1 = p := of_decide_eq_true (List.mem_filter.mp hbfil).2
    have hvsnd : v ∈ (newcomerStep process_num old ml
        (survivorStep old ml []).1 (survivorStep old ml []).2).binds.map
        Prod.snd :=
      List.mem_map.mpr ⟨b, hbbinds, hbsnd⟩
    obtain ⟨hbnd, hfr⟩ := newcomerStep_binds_fresh process_num old ml
      (survivorStep old ml []).1 (survivorStep old ml []).2
    have hnolookup : ∀ q, dlookup (newcomerStep process_num old ml
        (survivorStep old ml []).1 (survivorStep old ml []).2).cur_pid_arr q ≠
        some v := by
      intro q hq
      rcases newcomerStep_lookup_sub _ _ _ _ _ hq with h1 | h2
      · rcases survivorStep_lookup_using _ h1 with hu | hcx
        · exact hfr v hvsnd hu
        · simp [dlookup] at hcx
      · have hqb : (q, v) = b := by
          apply List.inj_on_of_nodup_map hbnd h2 hbbinds
          exact hbsnd.symm
        have hq_eq : q = p := by
          rw [← hbp, ← hqb]
        have hw : dlookup (newcomerStep process_num old ml
            (survivorStep old ml []).1 (survivorStep old ml []).2).cur_pid_arr
            p = some w :=
          newcomerStep_lookup_last _ _ _ _ _ hrev
        rw [hq_eq] at hq
        have hvw : w = v := Option.some.inj (hw.symm.trans hq)
        have hndbf : (w :: ws).Nodup := by
          rw [← hrev, List.nodup_reverse]
          have hsub : List.Sublist (((newcomerStep process_num old ml
              (survivorStep old ml []).1
              (survivorStep old ml []).2).binds.filter
              (fun b => b.1 = p)).map Prod.snd)
              ((newcomerStep process_num old ml (survivorStep old ml []).1
              (survivorStep old ml []).2).binds.map Prod.snd) :=
            (List.filter_sublist _).map _
          exact hbnd.sublist hsub
        exact (List.nodup_cons.mp hndbf).1 (hvw ▸ hv)
    refine ⟨?_, ?_, ?_⟩
    · rw [newcomerStep_using_eq]
      exact List.mem_append_right _ hvsnd
    · intro hvmap
      obtain ⟨e, hemem, hesnd⟩ := List.mem_map.mp hvmap
      have hkeys : ((newcomerStep process_num old ml
          (survivorStep old ml []).1
          (survivorStep old ml []).2).cur_pid_arr.map Prod.fst).Nodup :=
        newcomerStep_keys_nodup _ _ _ _ _
          (survivorStep_keys_nodup _ List.nodup_nil)
      have hlk : dlookup (newcomerStep process_num old ml
          (survivorStep old ml []).1
          (survivorStep old ml []).2).cur_pid_arr e.1 = some v := by
        have he : (e.1, e.2) ∈ (newcomerStep process_num old ml
            (survivorStep old ml []).1
            (survivorStep old ml []).2).cur_pid_arr := by
          simpa using hemem
        rw [← hesnd]
        exact dlookup_of_mem_of_keys_nodup hkeys he
      exact hnolookup e.1 hlk
    · intro ml' hmem'
      obtain ⟨q, hq, hoq⟩ := survivorStep_using_mem _ hmem'
      exact hnolookup q hoq

/-- Witness for C10: the observation `[100, 100, 101]` from the empty state —
PID 100 is bound twice (cores 1 then 2), its assignment entry records core 2,
the orphaned core 1 stays in use, belongs to no PID, and is absent from any
next survivor pass's in-use list. -/
theorem claim_C10_duplicate_newcomer_witness :
    ((((reconcile process_num [] [100, 100, 101]).binds.filter
        (fun b => b.1 = 100)).map Prod.snd).reverse = [2, 1]) ∧
    (((reconcile process_num [] [100, 100, 101]).binds.map Prod.fst).count 100 =
      ((([100, 100, 101] : List Int).filter
        (fun pid => (dlookup ([] : Dict) pid).isNone)).take
        (reconcile process_num [] [100, 100, 101]).binds.length).count 100 ∧
    dlookup (reconcile process_num [] [100, 100, 101]).cur_pid_arr 100 =
      some 2 ∧
    ∀ v ∈ ([1] : List Int),
      v ∈ (reconcile process_num [] [100, 100, 101]).using_process ∧
      v ∉ (reconcile process_num [] [100, 100, 101]).cur_pid_arr.map
        Prod.snd ∧
      ∀ ml', v ∉ (survivorStep
        (reconcile process_num [] [100, 100, 101]).cur_pid_arr ml' []).1) :=
  ⟨by decide,
    claim_C10_duplicate_newcomer [] [100, 100, 101] 100 2 [1] (by decide)⟩

end SwTaskset
